import Mathlib

/-!
A shallow embedding of the `ol` interpreter core (the name-resolution pass of
`src/resolve.rs` and the tree-walking evaluator of `src/vm.rs`), together with
theorems checking the specification's claims against it.

Representation conventions used throughout:
* The Rust `Vec` scope/variable stacks push at the end and are searched from
  the end (`.iter().rev().position(..)`, `len - 1 - index`).  They are
  represented here as Lean lists with the innermost entry FIRST, so a push is
  `cons`, a pop is `tail`, the reversed search is `position` from the head,
  and the `len - 1 - index` read from the end is `List.get? index`.
* `HashMap` tables are represented as association lists; `insert` replaces an
  existing key binding in place or appends a fresh one, matching `HashMap`
  observable behaviour (`List.lookup` is the `get`).
* Machine integers: `ClassID(usize)` is a `Nat`; `i32` literals are carried as
  `Int` (no arithmetic is ever performed on them by the core).
-/

/-- The `ClassID(usize)` handle from `src/vm.rs`. -/
abbrev ClassID := Nat

/-- Rust's `Iterator::position`: the index of the first element satisfying
the predicate. -/
def position (p : α → Bool) : List α → Option Nat
| [] => none
| a :: rest => if p a then some 0 else (position p rest).map (· + 1)

/-- Runtime values, `Value` from `src/value.rs`.  The `Object` variant inlines
`Object { class, properties }` from `src/object.rs` (shared ownership by
reference counting is unobservable here because the core never mutates an
object's properties). -/
inductive Value where
| object (classId : ClassID) (properties : List (String × Value))
| unit
| bool (b : Bool)
| i32 (n : Int)
| string (s : String)

/-- Runtime types, `Type` from `src/typ.rs` (named `Ty` because `Type` is a
Lean universe). -/
inductive Ty where
| object (classId : ClassID)
| unit
| bool
| i32
| string
deriving DecidableEq

/-- The method `Value::typ` from `src/value.rs`. -/
def Value.typ : Value → Ty
| .object c _ => .object c
| .unit => .unit
| .bool _ => .bool
| .i32 _ => .i32
| .string _ => .string

/-- The generic expression tree `ExpressionOf<NewVar, GetVar>` from
`src/expression.rs` (`Of<NewVar, GetVar>` in `src/resolve.rs`).  `this` is a
Lean keyword, so the receiver field of `MethodCall` is named `receiver`;
`Do` is rendered `doBlock`. -/
inductive Of (NewVar GetVar : Type) where
| literal (value : Value)
| methodCall (name : String) (receiver : Of NewVar GetVar)
    (arguments : List (Of NewVar GetVar))
| localVariable (nameOrDeBruijnIndex : GetVar)
| letIn (name : NewVar) (bound : Of NewVar GetVar) (body : Of NewVar GetVar)
| ifThenElse (condition ifTrue ifFalse : Of NewVar GetVar)
| doBlock (steps : List (Of NewVar GetVar))

/-- The resolved form: `pub type Expression = ExpressionOf<(), usize>`. -/
abbrev Expression := Of Unit Nat

/-- The named form produced by the parser: `ExpressionOf<String, String>`. -/
abbrev NamedExpression := Of String String

/-- The error kinds of the spec's §7 as one closed family.
`unboundVariable` is the resolver's `anyhow!("variable `{name}` is not
defined")` from `src/resolve.rs`.  Modelled from the spec: the evaluation-time
kinds `NoSuchMethod(type, name)`, `TypeMismatch` and `IndexOutOfRange` are the
propagating failures spec §7 describes for the sites where the `src/vm.rs`
revision included under `src/` still panics (`.unwrap()` at the dispatch
lookup and the local-variable read, `todo!()` at the non-`Bool` condition and
the non-`String` builtin operands). -/
inductive Error where
| unboundVariable (name : String)
| noSuchMethod (typ : Ty) (name : String)
| typeMismatch
| indexOutOfRange
deriving DecidableEq

mutual

/-- The function `Resolver::resolve_expression` from `src/resolve.rs`, the `pub` resolver
that `src/vm.rs` imports (the superseded private copy in `src/expression.rs`
differs only in panicking instead of returning the error and in resolving
`IfThenElse` branches against a fresh empty scope).  The mutable
`local_variables` stack is passed as the innermost-first list `locals`: the
source pushes before resolving a `LetIn`'s two children and pops afterwards,
so both `bound` and `body` are resolved with `name :: locals` — note that the
source resolves `bound` in the ALREADY EXTENDED scope. -/
def resolveExpression (locals : List String) : NamedExpression → Except Error Expression
| .literal v => .ok (.literal v)
| .methodCall name receiver arguments =>
  match resolveExpression locals receiver with
  | .error e => .error e
  | .ok r =>
    match resolveList locals arguments with
    | .error e => .error e
    | .ok args => .ok (.methodCall name r args)
| .localVariable name =>
  match position (fun entry => entry == name) locals with
  | some index => .ok (.localVariable index)
  | none => .error (.unboundVariable name)
| .letIn name bound body =>
  match resolveExpression (name :: locals) bound with
  | .error e => .error e
  | .ok b =>
    match resolveExpression (name :: locals) body with
    | .error e => .error e
    | .ok bd => .ok (.letIn () b bd)
| .ifThenElse condition ifTrue ifFalse =>
  match resolveExpression locals condition with
  | .error e => .error e
  | .ok c =>
    match resolveExpression locals ifTrue with
    | .error e => .error e
    | .ok t =>
      match resolveExpression locals ifFalse with
      | .error e => .error e
      | .ok f => .ok (.ifThenElse c t f)
| .doBlock steps =>
  match resolveList locals steps with
  | .error e => .error e
  | .ok ss => .ok (.doBlock ss)

/-- The `collect::<Result<_>>()` folding over `resolve_expression`, used for `MethodCall`
arguments and `Do` steps: left to right, stopping at the first error. -/
def resolveList (locals : List String) : List NamedExpression → Except Error (List Expression)
| [] => .ok []
| e :: rest =>
  match resolveExpression locals e with
  | .error err => .error err
  | .ok r =>
    match resolveList locals rest with
    | .error err => .error err
    | .ok rs => .ok (r :: rs)
end

/-- The two native functions ever stored in a `Method::Builtin` (installed by
`VM::new` in `src/vm.rs`, duplicated as `default_methods` in
`src/method.rs`): `println` and `concat` on `String`. -/
inductive Builtin where
| println
| concat
deriving DecidableEq

/-- The `Method` enum from `src/method.rs`: a native function or a resolved
user-defined body. -/
inductive Method where
| builtin (f : Builtin)
| custom (body : Expression)

/-- Association-list counterpart of `HashMap::insert`: replace the binding of
an existing key, otherwise append the new binding. -/
def assocInsert (k : String) (v : α) : List (String × α) → List (String × α)
| [] => [(k, v)]
| (k2, v2) :: rest =>
  if k2 == k then (k, v) :: rest else (k2, v2) :: assocInsert k v rest

/-- Association-list counterpart of `HashMap::insert` keyed by `Ty`. -/
def tyInsert (k : Ty) (v : α) : List (Ty × α) → List (Ty × α)
| [] => [(k, v)]
| (k2, v2) :: rest =>
  if k2 == k then (k, v) :: rest else (k2, v2) :: tyInsert k v rest

/-- The state owned by `VM` in `src/vm.rs`: the dispatch table
`methods: HashMap<Type, HashMap<String, Rc<Method>>>`, the shared
`local_variables: Vec<Value>` stack (innermost first here), and
`class_id_counter`.  `output` records the lines written by `println` (the
standard-output channel, an external collaborator in the spec). -/
structure VMState where
  methods : List (Ty × List (String × Method))
  locals : List Value
  classIdCounter : Nat
  output : List String

/-- The two-level dispatch lookup
`self.methods.get(&this_type)` then `.get(name)` from
`VM::evaluate_expression` in `src/vm.rs`; `none` covers both a missing
per-type table and a missing name entry (each an `.unwrap()` panic site in
the included revision, `NoSuchMethod` in the spec). -/
def methodLookup (methods : List (Ty × List (String × Method))) (ty : Ty)
    (name : String) : Option Method :=
  match List.lookup ty methods with
  | none => none
  | some table => List.lookup name table

/-- The argument traversal of the `concat` builtin from `src/vm.rs` /
`src/method.rs`: every argument must be a `String` (otherwise `todo!()` in
the included revision, `TypeMismatch` in the spec); the string contents are
concatenated left to right. -/
def concatArguments : List Value → Except Error String
| [] => .ok ""
| .string s :: rest =>
  match concatArguments rest with
  | .error e => .error e
  | .ok tail2 => .ok (s ++ tail2)
| _ :: _ => .error .typeMismatch

/-- The bodies of the two `Method::Builtin` closures installed by `VM::new`
(`src/vm.rs`) / `default_methods` (`src/method.rs`).  Modelled from the spec:
the `let Value::String(..) = .. else { todo!() }` and `todo!()` arms are the
spec's `TypeMismatch` failures (§4.3, §7); `println` appends its line to the
output channel instead of writing to stdout. -/
def applyBuiltin (f : Builtin) (s : VMState) (receiver : Value)
    (arguments : List Value) : VMState × Except Error Value :=
  match f with
  | .println =>
    match receiver with
    | .string str => ({ s with output := s.output ++ [str] }, .ok .unit)
    | _ => (s, .error .typeMismatch)
  | .concat =>
    match receiver with
    | .string str =>
      match concatArguments arguments with
      | .error e => (s, .error e)
      | .ok rest => (s, .ok (.string (str ++ rest)))
    | _ => (s, .error .typeMismatch)

mutual

/-- The function `VM::evaluate_expression` from `src/vm.rs`, with an explicit
fuel parameter making the (possibly nonterminating, through recursive method
calls) interpreter total: `none` means the fuel ran out, `some (s, r)` means
the source returns with state `s` and outcome `r`.  Modelled from the spec:
the panic sites of the included revision return the spec's §7 error kinds as
propagating `Except` failures — the dispatch `.unwrap()`s become
`NoSuchMethod(type, name)`, the local-variable `.unwrap()` (together with the
`len - 1 - index` underflow) becomes `IndexOutOfRange`, and the non-`Bool`
condition `todo!()` becomes `TypeMismatch`.  Everything else — evaluation
order, the stack discipline, the lookup positions — is translated from the
source. -/
def evaluateExpression : Nat → VMState → Expression → Option (VMState × Except Error Value)
| 0, _, _ => none
| fuel + 1, s, e =>
  match e with
  | .literal v => some (s, .ok v)
  | .methodCall name receiver arguments =>
    match evaluateExpression fuel s receiver with
    | none => none
    | some (s1, .error err) => some (s1, .error err)
    | some (s1, .ok receiverValue) =>
      match methodLookup s1.methods receiverValue.typ name with
      | none => some (s1, .error (.noSuchMethod receiverValue.typ name))
      | some m =>
        match evaluateArguments fuel s1 arguments with
        | none => none
        | some (s2, .error err) => some (s2, .error err)
        | some (s2, .ok argumentValues) =>
          invokeMethod fuel s2 m receiverValue argumentValues
  | .localVariable index =>
    match s.locals.get? index with
    | some v => some (s, .ok v)
    | none => some (s, .error .indexOutOfRange)
  | .letIn _ bound body =>
    match evaluateExpression fuel s bound with
    | none => none
    | some (s1, .error err) => some (s1, .error err)
    | some (s1, .ok boundValue) =>
      match evaluateExpression fuel { s1 with locals := boundValue :: s1.locals } body with
      | none => none
      | some (s2, r) => some ({ s2 with locals := s2.locals.tail }, r)
  | .ifThenElse condition ifTrue ifFalse =>
    match evaluateExpression fuel s condition with
    | none => none
    | some (s1, .error err) => some (s1, .error err)
    | some (s1, .ok (.bool b)) =>
      evaluateExpression fuel s1 (if b then ifTrue else ifFalse)
    | some (s1, .ok _) => some (s1, .error .typeMismatch)
  | .doBlock steps => evaluateSteps fuel s steps

/-- The argument loop of `MethodCall` evaluation
(`arguments.iter().map(..).collect()` in `src/vm.rs`): left to right,
collecting the values, stopping at the first failure. -/
def evaluateArguments : Nat → VMState → List Expression → Option (VMState × Except Error (List Value))
| 0, _, _ => none
| _ + 1, s, [] => some (s, .ok [])
| fuel + 1, s, e :: rest =>
  match evaluateExpression fuel s e with
  | none => none
  | some (s1, .error err) => some (s1, .error err)
  | some (s1, .ok v) =>
    match evaluateArguments fuel s1 rest with
    | none => none
    | some (s2, .error err) => some (s2, .error err)
    | some (s2, .ok vs) => some (s2, .ok (v :: vs))

/-- The `Do` loop from `src/vm.rs`
(`steps.iter().map(..).last().unwrap_or(Value::Unit)`): every step is
evaluated in order, intermediate values are discarded, the last value (or
`Unit` for an empty sequence) is the result. -/
def evaluateSteps : Nat → VMState → List Expression → Option (VMState × Except Error Value)
| 0, _, _ => none
| _ + 1, s, [] => some (s, .ok .unit)
| fuel + 1, s, e :: rest =>
  match evaluateExpression fuel s e with
  | none => none
  | some (s1, .error err) => some (s1, .error err)
  | some (s1, .ok v) =>
    match rest with
    | [] => some (s1, .ok v)
    | _ :: _ => evaluateSteps fuel s1 rest

/-- The function `VM::invoke_method` from `src/vm.rs`.  For a `Custom` body:
record the stack length, push the receiver then the arguments (receiver
deepest), evaluate the body, then truncate back to the recorded length —
the source performs the truncation on the returned result unconditionally,
before propagating it, so it happens on the error outcome as well.  In the
innermost-first representation `Vec::truncate(n)` keeps the outermost `n`
entries: `drop (length - n)`. -/
def invokeMethod : Nat → VMState → Method → Value → List Value → Option (VMState × Except Error Value)
| 0, _, _, _, _ => none
| _ + 1, s, .builtin f, receiver, arguments =>
  some (applyBuiltin f s receiver arguments)
| fuel + 1, s, .custom body, receiver, arguments =>
  let localVariableCount := s.locals.length
  let s1 := { s with locals := arguments.reverse ++ receiver :: s.locals }
  match evaluateExpression fuel s1 body with
  | none => none
  | some (s2, result) =>
    some ({ s2 with locals := s2.locals.drop (s2.locals.length - localVariableCount) }, result)

end

/-- The state built by `VM::new` in `src/vm.rs`: only the two `String`
builtins are registered, the local-variable stack is empty, and the class-id
counter starts at `0`. -/
def initialVM : VMState where
  methods := [(Ty.string,
    [("println", Method.builtin .println), ("concat", Method.builtin .concat)])]
  locals := []
  classIdCounter := 0
  output := []

/-- The struct `ClassMethod` from `src/program.rs`. -/
structure ClassMethod where
  name : String
  parameters : List String
  body : NamedExpression

/-- The struct `Class` from `src/program.rs` (named `ProgramClass` because
`Class` is taken by Mathlib). -/
structure ProgramClass where
  name : String
  methods : List ClassMethod

/-- The struct `Program` from `src/program.rs`. -/
structure Program where
  classes : List ProgramClass

/-- The initial resolver scope built by `VM::load_program`
(`std::iter::once("this".to_owned()).chain(method.parameters)`), in the
innermost-first representation: the last-declared parameter first, `this`
deepest. -/
def initialScope (parameters : List String) : List String :=
  ("this" :: parameters).reverse

/-- Insertion of one resolved method into the dispatch table:
`self.methods.entry(Type::Object(class_id)).or_insert_with(Default::default).insert(name, ..)`
from `VM::load_program` in `src/vm.rs`. -/
def tableInsert (methods : List (Ty × List (String × Method))) (ty : Ty)
    (name : String) (m : Method) : List (Ty × List (String × Method)) :=
  tyInsert ty (assocInsert name m ((List.lookup ty methods).getD [])) methods

/-- The inner method loop of `VM::load_program` from `src/vm.rs` for one
class: resolve each body against the initial scope convention and insert it
under `Type::Object(class_id)`.  Modelled from the spec: the included
`src/vm.rs` revision predates the fallible resolver of `src/resolve.rs`
whose `Result` it consumes, so the propagation of a resolution failure out
of the loop ("fails eagerly, per method, with resolution errors", spec §4.3)
is modelled as an early return that keeps the mutations (`&mut self`)
already performed. -/
def loadMethods (s : VMState) (classId : ClassID) : List ClassMethod → VMState × Except Error Unit
| [] => (s, .ok ())
| m :: rest =>
  match resolveExpression (initialScope m.parameters) m.body with
  | .error e => (s, .error e)
  | .ok body =>
    loadMethods
      { s with methods := tableInsert s.methods (.object classId) m.name (.custom body) }
      classId rest

/-- The class loop of `VM::load_program` from `src/vm.rs`: assign a fresh
`ClassID` (`new_class_id` increments the counter first), record it in the
returned name map, then load the class's methods; a resolution failure stops
the load, discarding the name map but keeping the dispatch-table entries
already inserted. -/
def loadClasses (s : VMState) (classIds : List (String × ClassID)) :
    List ProgramClass → VMState × Except Error (List (String × ClassID))
| [] => (s, .ok classIds)
| c :: rest =>
  let classId := s.classIdCounter + 1
  let s1 := { s with classIdCounter := classId }
  let classIds1 := assocInsert c.name classId classIds
  match loadMethods s1 classId c.methods with
  | (s2, .error e) => (s2, .error e)
  | (s2, .ok ()) => loadClasses s2 classIds1 rest

/-- The function `VM::load_program` from `src/vm.rs` (see `loadMethods` for
the spec-modelled failure propagation). -/
def loadProgram (s : VMState) (program : Program) : VMState × Except Error (List (String × ClassID)) :=
  loadClasses s [] program.classes

mutual

/-- The hypothesis of the spec's success claim, written with the claim's own
words: every `LocalVariable` occurrence is bound by an enclosing `LetIn` or
by the initial scope.  An occurrence anywhere inside a `LetIn` — in `bound`
as well as in `body` — has that `LetIn` as an enclosing binder, so the scope
is extended for both children. -/
def wellBound (locals : List String) : NamedExpression → Bool
| .literal _ => true
| .methodCall _ receiver arguments =>
  wellBound locals receiver && wellBoundList locals arguments
| .localVariable name => locals.contains name
| .letIn name bound body =>
  wellBound (name :: locals) bound && wellBound (name :: locals) body
| .ifThenElse condition ifTrue ifFalse =>
  wellBound locals condition && wellBound locals ifTrue && wellBound locals ifFalse
| .doBlock steps => wellBoundList locals steps

/-- Pointwise `wellBound` over argument and step lists. -/
def wellBoundList (locals : List String) : List NamedExpression → Bool
| [] => true
| e :: rest => wellBound locals e && wellBoundList locals rest
end

mutual

/-- Every De Bruijn index of a resolved expression is strictly below the
scope depth at its position, counting one extra scope entry inside both
children of a `LetIn` (the depth the resolver's stack has there). -/
def idxBounded (depth : Nat) : Expression → Bool
| .literal _ => true
| .methodCall _ receiver arguments =>
  idxBounded depth receiver && idxBoundedList depth arguments
| .localVariable index => index < depth
| .letIn _ bound body => idxBounded (depth + 1) bound && idxBounded (depth + 1) body
| .ifThenElse condition ifTrue ifFalse =>
  idxBounded depth condition && idxBounded depth ifTrue && idxBounded depth ifFalse
| .doBlock steps => idxBoundedList depth steps

/-- Pointwise `idxBounded` over argument and step lists. -/
def idxBoundedList (depth : Nat) : List Expression → Bool
| [] => true
| e :: rest => idxBounded depth e && idxBoundedList depth rest
end

mutual

/-- The constructor skeleton of an expression: binder names and variable
references are erased, everything else (constructors, literal values, method
names, list lengths and order) is kept. -/
def skeleton : Of NewVar GetVar → Of Unit Unit
| .literal v => .literal v
| .methodCall name receiver arguments =>
  .methodCall name (skeleton receiver) (skeletonList arguments)
| .localVariable _ => .localVariable ()
| .letIn _ bound body => .letIn () (skeleton bound) (skeleton body)
| .ifThenElse condition ifTrue ifFalse =>
  .ifThenElse (skeleton condition) (skeleton ifTrue) (skeleton ifFalse)
| .doBlock steps => .doBlock (skeletonList steps)

/-- Pointwise `skeleton` over argument and step lists. -/
def skeletonList : List (Of NewVar GetVar) → List (Of Unit Unit)
| [] => []
| e :: rest => skeleton e :: skeletonList rest
end

/-- Simultaneous induction principle for the nested expression tree and its
argument/step lists, packaged from the auto-generated recursor. -/
theorem Of.induction {NewVar GetVar : Type}
    (P : Of NewVar GetVar → Prop) (Q : List (Of NewVar GetVar) → Prop)
    (hlit : ∀ v, P (.literal v))
    (hcall : ∀ name receiver arguments,
      P receiver → Q arguments → P (.methodCall name receiver arguments))
    (hvar : ∀ x, P (.localVariable x))
    (hlet : ∀ name bound body, P bound → P body → P (.letIn name bound body))
    (hif : ∀ c t f, P c → P t → P f → P (.ifThenElse c t f))
    (hdo : ∀ steps, Q steps → P (.doBlock steps))
    (hnil : Q [])
    (hcons : ∀ e rest, P e → Q rest → Q (e :: rest)) :
    (∀ e, P e) ∧ (∀ l, Q l) := by
  have hP : ∀ e, P e :=
    fun e => @Of.rec NewVar GetVar P Q hlit hcall hvar hlet hif hdo hnil hcons e
  refine ⟨hP, ?_⟩
  intro l
  induction l with
  | nil => exact hnil
  | cons e rest ih => exact hcons e rest (hP e) ih

theorem position_some_lt {p : α → Bool} :
    ∀ {l : List α} {i : Nat}, position p l = some i → i < l.length := by
  intro l
  induction l with
  | nil => intro i h; simp [position] at h
  | cons a rest ih =>
    intro i h
    by_cases hp : p a
    · simp [position, hp] at h
      simp [← h]
    · simp [position, hp] at h
      obtain ⟨j, hj, rfl⟩ := h
      have := ih hj
      simp
      omega

theorem position_isSome_eq_contains (nm : String) :
    ∀ l : List String, (position (fun entry => entry == nm) l).isSome = l.contains nm := by
  intro l
  induction l with
  | nil => simp [position]
  | cons a rest ih =>
    by_cases hp : a = nm
    · subst hp; simp [position]
    · have hp2 : (a == nm) = false := by simp [hp]
      have hp3 : (nm == a) = false := by simp [Ne.symm hp]
      rw [List.contains_cons, hp3, Bool.false_or, ← ih]
      simp [position, hp2]

@[simp] theorem exceptIsOk_ok (a : α) : (Except.ok a : Except ε α).isOk = true := rfl

@[simp] theorem exceptIsOk_error (e : ε) : (Except.error e : Except ε α).isOk = false := rfl

/-- Package of the three resolution facts C2 needs, for one expression over
every scope. -/
def ResolveSound (e : NamedExpression) : Prop :=
  ∀ Γ : List String,
    ((resolveExpression Γ e).isOk = wellBound Γ e)
    ∧ (∀ r, resolveExpression Γ e = .ok r → idxBounded Γ.length r = true)
    ∧ (∀ err, resolveExpression Γ e = .error err → ∃ nm, err = .unboundVariable nm)

/-- List version of `ResolveSound`. -/
def ResolveSoundList (l : List NamedExpression) : Prop :=
  ∀ Γ : List String,
    ((resolveList Γ l).isOk = wellBoundList Γ l)
    ∧ (∀ rs, resolveList Γ l = .ok rs → idxBoundedList Γ.length rs = true)
    ∧ (∀ err, resolveList Γ l = .error err → ∃ nm, err = .unboundVariable nm)

theorem resolve_sound :
    (∀ e : NamedExpression, ResolveSound e) ∧
    (∀ l : List NamedExpression, ResolveSoundList l) := by
  refine Of.induction ResolveSound ResolveSoundList ?_ ?_ ?_ ?_ ?_ ?_ ?_ ?_
  · -- literal
    intro v Γ
    refine ⟨rfl, ?_, ?_⟩
    · intro r h
      simp only [resolveExpression, Except.ok.injEq] at h
      subst h
      simp [idxBounded]
    · intro err h
      simp [resolveExpression] at h
  · -- methodCall
    intro name receiver args ihr ihl Γ
    obtain ⟨rA, rB, rC⟩ := ihr Γ
    obtain ⟨lA, lB, lC⟩ := ihl Γ
    cases h1 : resolveExpression Γ receiver with
    | error err =>
      rw [h1] at rA
      refine ⟨?_, ?_, ?_⟩
      · simp [resolveExpression, h1, wellBound, ← rA]
      · intro r h
        simp [resolveExpression, h1] at h
      · intro err2 h
        simp only [resolveExpression, h1] at h
        cases h
        exact rC err h1
    | ok r =>
      rw [h1] at rA
      cases h2 : resolveList Γ args with
      | error err =>
        rw [h2] at lA
        refine ⟨?_, ?_, ?_⟩
        · simp [resolveExpression, h1, h2, wellBound, ← rA, ← lA]
        · intro r2 h
          simp [resolveExpression, h1, h2] at h
        · intro err2 h
          simp only [resolveExpression, h1, h2] at h
          cases h
          exact lC err h2
      | ok args2 =>
        rw [h2] at lA
        refine ⟨?_, ?_, ?_⟩
        · simp [resolveExpression, h1, h2, wellBound, ← rA, ← lA]
        · intro r2 h
          simp only [resolveExpression, h1, h2, Except.ok.injEq] at h
          subst h
          simp only [idxBounded, Bool.and_eq_true]
          exact ⟨rB r h1, lB args2 h2⟩
        · intro err2 h
          simp [resolveExpression, h1, h2] at h
  · -- localVariable
    intro x Γ
    refine ⟨?_, ?_, ?_⟩
    · rw [show wellBound Γ (Of.localVariable x) = Γ.contains x from rfl,
        ← position_isSome_eq_contains]
      cases h : position (fun entry => entry == x) Γ <;>
        simp [resolveExpression, h]
    · intro r h
      cases hp : position (fun entry => entry == x) Γ with
      | none => simp [resolveExpression, hp] at h
      | some i =>
        simp only [resolveExpression, hp, Except.ok.injEq] at h
        subst h
        simp only [idxBounded, decide_eq_true_eq]
        exact position_some_lt hp
    · intro err h
      cases hp : position (fun entry => entry == x) Γ with
      | none =>
        simp only [resolveExpression, hp, Except.error.injEq] at h
        exact ⟨x, h.symm⟩
      | some i => simp [resolveExpression, hp] at h
  · -- letIn
    intro name bound body ihb ihd Γ
    obtain ⟨bA, bB, bC⟩ := ihb (name :: Γ)
    obtain ⟨dA, dB, dC⟩ := ihd (name :: Γ)
    cases h1 : resolveExpression (name :: Γ) bound with
    | error err =>
      rw [h1] at bA
      refine ⟨?_, ?_, ?_⟩
      · simp [resolveExpression, h1, wellBound, ← bA]
      · intro r h
        simp [resolveExpression, h1] at h
      · intro err2 h
        simp only [resolveExpression, h1] at h
        cases h
        exact bC err h1
    | ok b =>
      rw [h1] at bA
      cases h2 : resolveExpression (name :: Γ) body with
      | error err =>
        rw [h2] at dA
        refine ⟨?_, ?_, ?_⟩
        · simp [resolveExpression, h1, h2, wellBound, ← bA, ← dA]
        · intro r h
          simp [resolveExpression, h1, h2] at h
        · intro err2 h
          simp only [resolveExpression, h1, h2] at h
          cases h
          exact dC err h2
      | ok d =>
        rw [h2] at dA
        refine ⟨?_, ?_, ?_⟩
        · simp [resolveExpression, h1, h2, wellBound, ← bA, ← dA]
        · intro r h
          simp only [resolveExpression, h1, h2, Except.ok.injEq] at h
          subst h
          simp only [idxBounded, Bool.and_eq_true]
          have hb := bB b h1
          have hd := dB d h2
          simp only [List.length_cons] at hb hd
          exact ⟨hb, hd⟩
        · intro err h
          simp [resolveExpression, h1, h2] at h
  · -- ifThenElse
    intro c t f ihc iht ihf Γ
    obtain ⟨cA, cB, cC⟩ := ihc Γ
    obtain ⟨tA, tB, tC⟩ := iht Γ
    obtain ⟨fA, fB, fC⟩ := ihf Γ
    cases h1 : resolveExpression Γ c with
    | error err =>
      rw [h1] at cA
      refine ⟨?_, ?_, ?_⟩
      · simp [resolveExpression, h1, wellBound, ← cA]
      · intro r h
        simp [resolveExpression, h1] at h
      · intro err2 h
        simp only [resolveExpression, h1] at h
        cases h
        exact cC err h1
    | ok c2 =>
      rw [h1] at cA
      cases h2 : resolveExpression Γ t with
      | error err =>
        rw [h2] at tA
        refine ⟨?_, ?_, ?_⟩
        · simp [resolveExpression, h1, h2, wellBound, ← cA, ← tA]
        · intro r h
          simp [resolveExpression, h1, h2] at h
        · intro err2 h
          simp only [resolveExpression, h1, h2] at h
          cases h
          exact tC err h2
      | ok t2 =>
        rw [h2] at tA
        cases h3 : resolveExpression Γ f with
        | error err =>
          rw [h3] at fA
          refine ⟨?_, ?_, ?_⟩
          · simp [resolveExpression, h1, h2, h3, wellBound, ← cA, ← tA, ← fA]
          · intro r h
            simp [resolveExpression, h1, h2, h3] at h
          · intro err2 h
            simp only [resolveExpression, h1, h2, h3] at h
            cases h
            exact fC err h3
        | ok f2 =>
          rw [h3] at fA
          refine ⟨?_, ?_, ?_⟩
          · simp [resolveExpression, h1, h2, h3, wellBound, ← cA, ← tA, ← fA]
          · intro r h
            simp only [resolveExpression, h1, h2, h3, Except.ok.injEq] at h
            subst h
            simp only [idxBounded, Bool.and_eq_true]
            exact ⟨⟨cB c2 h1, tB t2 h2⟩, fB f2 h3⟩
          · intro err h
            simp [resolveExpression, h1, h2, h3] at h
  · -- doBlock
    intro steps ihl Γ
    obtain ⟨lA, lB, lC⟩ := ihl Γ
    cases h1 : resolveList Γ steps with
    | error err =>
      rw [h1] at lA
      refine ⟨?_, ?_, ?_⟩
      · simp [resolveExpression, h1, wellBound, ← lA]
      · intro r h
        simp [resolveExpression, h1] at h
      · intro err2 h
        simp only [resolveExpression, h1] at h
        cases h
        exact lC err h1
    | ok ss =>
      rw [h1] at lA
      refine ⟨?_, ?_, ?_⟩
      · simp [resolveExpression, h1, wellBound, ← lA]
      · intro r h
        simp only [resolveExpression, h1, Except.ok.injEq] at h
        subst h
        simp only [idxBounded]
        exact lB ss h1
      · intro err h
        simp [resolveExpression, h1] at h
  · -- nil
    intro Γ
    refine ⟨rfl, ?_, ?_⟩
    · intro rs h
      simp only [resolveList, Except.ok.injEq] at h
      subst h
      simp [idxBoundedList]
    · intro err h
      simp [resolveList] at h
  · -- cons
    intro e rest ihe ihrest Γ
    obtain ⟨eA, eB, eC⟩ := ihe Γ
    obtain ⟨rA, rB, rC⟩ := ihrest Γ
    cases h1 : resolveExpression Γ e with
    | error err =>
      rw [h1] at eA
      refine ⟨?_, ?_, ?_⟩
      · simp [resolveList, h1, wellBoundList, ← eA]
      · intro rs h
        simp [resolveList, h1] at h
      · intro err2 h
        simp only [resolveList, h1] at h
        cases h
        exact eC err h1
    | ok r =>
      rw [h1] at eA
      cases h2 : resolveList Γ rest with
      | error err =>
        rw [h2] at rA
        refine ⟨?_, ?_, ?_⟩
        · simp [resolveList, h1, h2, wellBoundList, ← eA, ← rA]
        · intro rs h
          simp [resolveList, h1, h2] at h
        · intro err2 h
          simp only [resolveList, h1, h2] at h
          cases h
          exact rC err h2
      | ok rs2 =>
        rw [h2] at rA
        refine ⟨?_, ?_, ?_⟩
        · simp [resolveList, h1, h2, wellBoundList, ← eA, ← rA]
        · intro rs h
          simp only [resolveList, h1, h2, Except.ok.injEq] at h
          subst h
          simp only [idxBoundedList, Bool.and_eq_true]
          exact ⟨eB r h1, rB rs2 h2⟩
        · intro err h
          simp [resolveList, h1, h2] at h

theorem applyBuiltin_locals (f : Builtin) (s : VMState) (receiver : Value)
    (arguments : List Value) :
    (applyBuiltin f s receiver arguments).1.locals = s.locals := by
  cases f <;> cases receiver <;>
    first
    | rfl
    | (simp only [applyBuiltin]; cases concatArguments arguments <;> rfl)

theorem eval_locals_length : ∀ fuel : Nat,
    (∀ s e s2 r, evaluateExpression fuel s e = some (s2, r) →
      s2.locals.length = s.locals.length)
    ∧ (∀ s l s2 r, evaluateArguments fuel s l = some (s2, r) →
      s2.locals.length = s.locals.length)
    ∧ (∀ s l s2 r, evaluateSteps fuel s l = some (s2, r) →
      s2.locals.length = s.locals.length)
    ∧ (∀ s m receiver arguments s2 r,
      invokeMethod fuel s m receiver arguments = some (s2, r) →
      s2.locals.length = s.locals.length) := by
  intro fuel
  induction fuel with
  | zero =>
    refine ⟨?_, ?_, ?_, ?_⟩
    · intro s e s2 r h
      simp [evaluateExpression] at h
    · intro s l s2 r h
      simp [evaluateArguments] at h
    · intro s l s2 r h
      simp [evaluateSteps] at h
    · intro s m receiver arguments s2 r h
      simp [invokeMethod] at h
  | succ n ih =>
    obtain ⟨ihE, ihA, ihS, ihI⟩ := ih
    refine ⟨?_, ?_, ?_, ?_⟩
    · intro s e s2 r h
      cases e with
      | literal v =>
        simp only [evaluateExpression, Option.some.injEq, Prod.mk.injEq] at h
        rw [← h.1]
      | methodCall name receiver arguments =>
        simp only [evaluateExpression] at h
        split at h
        · exact absurd h (by simp)
        · next s1 err heq =>
          simp only [Option.some.injEq, Prod.mk.injEq] at h
          rw [← h.1]
          exact ihE s receiver s1 _ heq
        · next s1 receiverValue heq =>
          have e1 := ihE s receiver s1 _ heq
          split at h
          · simp only [Option.some.injEq, Prod.mk.injEq] at h
            rw [← h.1]
            exact e1
          · next m hm =>
            split at h
            · exact absurd h (by simp)
            · next sa err heq2 =>
              simp only [Option.some.injEq, Prod.mk.injEq] at h
              rw [← h.1]
              rw [ihA s1 arguments sa _ heq2]
              exact e1
            · next sa argumentValues heq2 =>
              have e2 := ihA s1 arguments sa _ heq2
              have e3 := ihI sa m receiverValue argumentValues s2 r h
              omega
      | localVariable index =>
        simp only [evaluateExpression] at h
        split at h <;>
          (simp only [Option.some.injEq, Prod.mk.injEq] at h; rw [← h.1])
      | letIn name bound body =>
        simp only [evaluateExpression] at h
        split at h
        · exact absurd h (by simp)
        · next s1 err heq =>
          simp only [Option.some.injEq, Prod.mk.injEq] at h
          rw [← h.1]
          exact ihE s bound s1 _ heq
        · next s1 boundValue heq =>
          have e1 := ihE s bound s1 _ heq
          split at h
          · exact absurd h (by simp)
          · next sb rb heq2 =>
            have e2 := ihE _ body sb _ heq2
            simp only [List.length_cons] at e2
            simp only [Option.some.injEq, Prod.mk.injEq] at h
            rw [← h.1]
            simp only [List.length_tail]
            omega
      | ifThenElse condition ifTrue ifFalse =>
        simp only [evaluateExpression] at h
        split at h
        · exact absurd h (by simp)
        · next s1 err heq =>
          simp only [Option.some.injEq, Prod.mk.injEq] at h
          rw [← h.1]
          exact ihE s condition s1 _ heq
        · next s1 b heq =>
          have e1 := ihE s condition s1 _ heq
          have e2 := ihE s1 _ s2 r h
          omega
        · next s1 v hne heq =>
          have e1 := ihE s condition s1 _ heq
          simp only [Option.some.injEq, Prod.mk.injEq] at h
          rw [← h.1]
          exact e1
      | doBlock steps =>
        simp only [evaluateExpression] at h
        exact ihS s steps s2 r h
    · intro s l s2 r h
      cases l with
      | nil =>
        simp only [evaluateArguments, Option.some.injEq, Prod.mk.injEq] at h
        rw [← h.1]
      | cons e rest =>
        simp only [evaluateArguments] at h
        split at h
        · exact absurd h (by simp)
        · next s1 err heq =>
          simp only [Option.some.injEq, Prod.mk.injEq] at h
          rw [← h.1]
          exact ihE s e s1 _ heq
        · next s1 v heq =>
          have e1 := ihE s e s1 _ heq
          split at h
          · exact absurd h (by simp)
          · next sa err heq2 =>
            simp only [Option.some.injEq, Prod.mk.injEq] at h
            rw [← h.1]
            rw [ihA s1 rest sa _ heq2]
            exact e1
          · next sa vs heq2 =>
            have e2 := ihA s1 rest sa _ heq2
            simp only [Option.some.injEq, Prod.mk.injEq] at h
            rw [← h.1]
            omega
    · intro s l s2 r h
      cases l with
      | nil =>
        simp only [evaluateSteps, Option.some.injEq, Prod.mk.injEq] at h
        rw [← h.1]
      | cons e rest =>
        simp only [evaluateSteps] at h
        split at h
        · exact absurd h (by simp)
        · next s1 err heq =>
          simp only [Option.some.injEq, Prod.mk.injEq] at h
          rw [← h.1]
          exact ihE s e s1 _ heq
        · next s1 v heq =>
          have e1 := ihE s e s1 _ heq
          split at h
          · simp only [Option.some.injEq, Prod.mk.injEq] at h
            rw [← h.1]
            exact e1
          · next a b =>
            have e2 := ihS s1 (a :: b) s2 r h
            omega
    · intro s m receiver arguments s2 r h
      cases m with
      | builtin f =>
        simp only [invokeMethod, Option.some.injEq] at h
        have h2 : (applyBuiltin f s receiver arguments).1 = s2 := by
          rw [h]
        rw [← h2, applyBuiltin_locals]
      | custom body =>
        simp only [invokeMethod] at h
        split at h
        · exact absurd h (by simp)
        · next sb rb heq =>
          have e1 := ihE _ body sb _ heq
          simp only [List.length_append, List.length_reverse, List.length_cons] at e1
          simp only [Option.some.injEq, Prod.mk.injEq] at h
          rw [← h.1]
          simp only [List.length_drop]
          omega

theorem evaluateSteps_append :
    ∀ (xs : List Expression) (fuel : Nat) (s s1 : VMState)
      (vs : List Value) (x : Expression),
      evaluateArguments fuel s xs = some (s1, .ok vs) →
      evaluateSteps fuel s (xs ++ [x]) = evaluateExpression (fuel - 1 - xs.length) s1 x := by
  intro xs
  induction xs with
  | nil =>
    intro fuel s s1 vs x h
    cases fuel with
    | zero => simp [evaluateArguments] at h
    | succ n =>
      simp only [evaluateArguments, Option.some.injEq, Prod.mk.injEq] at h
      obtain ⟨hs, _⟩ := h
      subst hs
      simp only [List.nil_append, List.length_nil, Nat.add_sub_cancel]
      show evaluateSteps (n + 1) s [x] = evaluateExpression (n + 1 - 1 - 0) s x
      simp only [Nat.add_sub_cancel, Nat.sub_zero]
      cases hx : evaluateExpression n s x with
      | none => simp [evaluateSteps, hx]
      | some p =>
        obtain ⟨sx, rx⟩ := p
        cases rx with
        | error err => simp [evaluateSteps, hx]
        | ok v => simp [evaluateSteps, hx]
  | cons e rest ih =>
    intro fuel s s1 vs x h
    cases fuel with
    | zero => simp [evaluateArguments] at h
    | succ n =>
      simp only [evaluateArguments] at h
      split at h
      · exact absurd h (by simp)
      · exact absurd h (by simp)
      · next sa v heq =>
        split at h
        · exact absurd h (by simp)
        · exact absurd h (by simp)
        · next sb vsb heq2 =>
          simp only [Option.some.injEq, Prod.mk.injEq] at h
          obtain ⟨hs, _⟩ := h
          obtain ⟨a, b, hab⟩ : ∃ a b, rest ++ [x] = a :: b := by
            cases rest <;> exact ⟨_, _, rfl⟩
          have step := ih n sa sb vsb x heq2
          have lhs : evaluateSteps (n + 1) s ((e :: rest) ++ [x]) =
              evaluateSteps n sa (rest ++ [x]) := by
            simp only [List.cons_append, evaluateSteps, heq, hab]
            simp only [List.append_eq, hab]
          rw [lhs, step, hs]
          congr 1
          simp only [List.length_cons]
          omega

/-- Structure preservation of resolution, for one expression. -/
def SkeletonPreserved (e : NamedExpression) : Prop :=
  ∀ (Γ : List String) (r : Expression),
    resolveExpression Γ e = .ok r → skeleton r = skeleton e

/-- List version of `SkeletonPreserved`. -/
def SkeletonPreservedList (l : List NamedExpression) : Prop :=
  ∀ (Γ : List String) (rs : List Expression),
    resolveList Γ l = .ok rs → skeletonList rs = skeletonList l

theorem resolve_skeleton :
    (∀ e : NamedExpression, SkeletonPreserved e) ∧
    (∀ l : List NamedExpression, SkeletonPreservedList l) := by
  refine Of.induction SkeletonPreserved SkeletonPreservedList ?_ ?_ ?_ ?_ ?_ ?_ ?_ ?_
  · intro v Γ r h
    simp only [resolveExpression, Except.ok.injEq] at h
    subst h
    rfl
  · intro name receiver args ihr ihl Γ r h
    simp only [resolveExpression] at h
    split at h
    · exact absurd h (by simp)
    · next r1 heq =>
      split at h
      · exact absurd h (by simp)
      · next args1 heq2 =>
        simp only [Except.ok.injEq] at h
        subst h
        simp only [skeleton, ihr Γ r1 heq, ihl Γ args1 heq2]
  · intro x Γ r h
    simp only [resolveExpression] at h
    split at h
    · next i hi =>
      simp only [Except.ok.injEq] at h
      subst h
      rfl
    · exact absurd h (by simp)
  · intro name bound body ihb ihd Γ r h
    simp only [resolveExpression] at h
    split at h
    · exact absurd h (by simp)
    · next b1 heq =>
      split at h
      · exact absurd h (by simp)
      · next d1 heq2 =>
        simp only [Except.ok.injEq] at h
        subst h
        simp only [skeleton, ihb _ b1 heq, ihd _ d1 heq2]
  · intro c t f ihc iht ihf Γ r h
    simp only [resolveExpression] at h
    split at h
    · exact absurd h (by simp)
    · next c1 heq =>
      split at h
      · exact absurd h (by simp)
      · next t1 heq2 =>
        split at h
        · exact absurd h (by simp)
        · next f1 heq3 =>
          simp only [Except.ok.injEq] at h
          subst h
          simp only [skeleton, ihc _ c1 heq, iht _ t1 heq2, ihf _ f1 heq3]
  · intro steps ihl Γ r h
    simp only [resolveExpression] at h
    split at h
    · exact absurd h (by simp)
    · next ss heq =>
      simp only [Except.ok.injEq] at h
      subst h
      simp only [skeleton, ihl _ ss heq]
  · intro Γ rs h
    simp only [resolveList, Except.ok.injEq] at h
    subst h
    rfl
  · intro e rest ihe ihrest Γ rs h
    simp only [resolveList] at h
    split at h
    · exact absurd h (by simp)
    · next r1 heq =>
      split at h
      · exact absurd h (by simp)
      · next rs1 heq2 =>
        simp only [Except.ok.injEq] at h
        subst h
        simp only [skeletonList, ihe _ r1 heq, ihrest _ rs1 heq2]

theorem position_append_self (nm : String) :
    ∀ l : List String, ¬nm ∈ l →
      position (fun entry => entry == nm) (l ++ [nm]) = some l.length := by
  intro l
  induction l with
  | nil => intro _; simp [position]
  | cons a rest ih =>
    intro h
    have hne : ¬a = nm := by
      intro hx
      exact h (hx ▸ List.mem_cons_self a rest)
    have h2 : (a == nm) = false := by simp [hne]
    have hrest : ¬nm ∈ rest := fun hx => h (List.mem_cons_of_mem a hx)
    simp [position, h2, ih hrest]

theorem concatArguments_typeMismatch :
    ∀ args : List Value, (∃ a ∈ args, ∀ str, a ≠ Value.string str) →
      concatArguments args = .error .typeMismatch := by
  intro args
  induction args with
  | nil =>
    intro h
    simp at h
  | cons a rest ih =>
    intro h
    obtain ⟨b, hb, hbs⟩ := h
    rcases List.mem_cons.mp hb with hba | hbr
    · subst hba
      cases b with
      | string str => exact absurd rfl (hbs str)
      | object c p => rfl
      | unit => rfl
      | bool x => rfl
      | i32 x => rfl
    · cases a with
      | string str =>
        have hr := ih ⟨b, hbr, hbs⟩
        simp [concatArguments, hr]
      | object c p => rfl
      | unit => rfl
      | bool x => rfl
      | i32 x => rfl

theorem lookup_assocInsert_self (k : String) (v : α) :
    ∀ l : List (String × α), List.lookup k (assocInsert k v l) = some v := by
  intro l
  induction l with
  | nil => simp [assocInsert, List.lookup]
  | cons p rest ih =>
    obtain ⟨k2, v2⟩ := p
    by_cases hk : k2 = k
    · subst hk
      simp [assocInsert, List.lookup]
    · have hk2 : (k2 == k) = false := by simp [hk]
      have hk3 : (k == k2) = false := by simp [Ne.symm hk]
      simp [assocInsert, hk2, List.lookup, hk3, ih]

theorem lookup_assocInsert_ne (k k2 : String) (v : α) (hne : ¬k2 = k) :
    ∀ l : List (String × α),
      List.lookup k2 (assocInsert k v l) = List.lookup k2 l := by
  have h0 : (k2 == k) = false := by simp [hne]
  intro l
  induction l with
  | nil => simp [assocInsert, List.lookup, h0]
  | cons p rest ih =>
    obtain ⟨k3, v3⟩ := p
    by_cases hk : k3 = k
    · subst hk
      have h3 : (k2 == k3) = false := by simp [hne]
      simp [assocInsert, List.lookup, h3]
    · have h1 : (k3 == k) = false := by simp [hk]
      simp only [assocInsert, h1, Bool.false_eq_true, if_false, List.lookup]
      cases hq : k2 == k3 <;> simp [hq, ih]

theorem lookup_tyInsert_self (k : Ty) (v : α) :
    ∀ l : List (Ty × α), List.lookup k (tyInsert k v l) = some v := by
  intro l
  induction l with
  | nil => simp [tyInsert, List.lookup]
  | cons p rest ih =>
    obtain ⟨k2, v2⟩ := p
    by_cases hk : k2 = k
    · subst hk
      simp [tyInsert, List.lookup]
    · have hk2 : (k2 == k) = false := by simp [hk]
      have hk3 : (k == k2) = false := by simp [Ne.symm hk]
      simp [tyInsert, hk2, List.lookup, hk3, ih]

theorem lookup_tyInsert_ne (k k2 : Ty) (v : α) (hne : ¬k2 = k) :
    ∀ l : List (Ty × α),
      List.lookup k2 (tyInsert k v l) = List.lookup k2 l := by
  have h0 : (k2 == k) = false := by simp [hne]
  intro l
  induction l with
  | nil => simp [tyInsert, List.lookup, h0]
  | cons p rest ih =>
    obtain ⟨k3, v3⟩ := p
    by_cases hk : k3 = k
    · subst hk
      have h3 : (k2 == k3) = false := by simp [hne]
      simp [tyInsert, List.lookup, h3]
    · have h1 : (k3 == k) = false := by simp [hk]
      simp only [tyInsert, h1, Bool.false_eq_true, if_false, List.lookup]
      cases hq : k2 == k3 <;> simp [hq, ih]

theorem methodLookup_tableInsert_self
    (M : List (Ty × List (String × Method))) (ty : Ty) (nm : String) (m : Method) :
    methodLookup (tableInsert M ty nm m) ty nm = some m := by
  unfold methodLookup tableInsert
  rw [lookup_tyInsert_self]
  simp [lookup_assocInsert_self]

theorem methodLookup_tableInsert_isSome
    (M : List (Ty × List (String × Method))) (ty ty2 : Ty) (nm nm2 : String) (m : Method)
    (h : (methodLookup M ty2 nm2).isSome = true) :
    (methodLookup (tableInsert M ty nm m) ty2 nm2).isSome = true := by
  by_cases hty : ty2 = ty
  · subst hty
    unfold methodLookup at h ⊢
    unfold tableInsert
    rw [lookup_tyInsert_self]
    cases hM : List.lookup ty2 M with
    | none => rw [hM] at h; simp at h
    | some tbl =>
      rw [hM] at h
      simp only [hM, Option.getD_some]
      by_cases hnm : nm2 = nm
      · subst hnm
        rw [lookup_assocInsert_self]
        rfl
      · rw [lookup_assocInsert_ne nm nm2 m hnm]
        exact h
  · unfold methodLookup at h ⊢
    unfold tableInsert
    rw [lookup_tyInsert_ne _ _ _ hty]
    exact h

theorem loadMethods_split :
    ∀ (good : List ClassMethod) (s : VMState) (cid : ClassID) (bad : ClassMethod)
      (rest : List ClassMethod) (e : Error),
      (∀ m ∈ good, (resolveExpression (initialScope m.parameters) m.body).isOk = true) →
      resolveExpression (initialScope bad.parameters) bad.body = .error e →
      ∃ s2, loadMethods s cid (good ++ bad :: rest) = (s2, .error e)
        ∧ (∀ ty2 nm2, (methodLookup s.methods ty2 nm2).isSome = true →
            (methodLookup s2.methods ty2 nm2).isSome = true)
        ∧ (∀ m ∈ good, (methodLookup s2.methods (.object cid) m.name).isSome = true) := by
  intro good
  induction good with
  | nil =>
    intro s cid bad rest e _ hbad
    refine ⟨s, ?_, fun _ _ h => h, ?_⟩
    · simp [loadMethods, hbad]
    · intro m hm
      simp at hm
  | cons m1 good ih =>
    intro s cid bad rest e hgood hbad
    have h1 : (resolveExpression (initialScope m1.parameters) m1.body).isOk = true :=
      hgood m1 (List.mem_cons_self m1 good)
    obtain ⟨body, hb⟩ : ∃ body,
        resolveExpression (initialScope m1.parameters) m1.body = .ok body := by
      cases hx : resolveExpression (initialScope m1.parameters) m1.body with
      | ok b => exact ⟨b, rfl⟩
      | error err => rw [hx] at h1; simp at h1
    obtain ⟨s2, hload, hpres, hgood2⟩ :=
      ih { s with methods := tableInsert s.methods (.object cid) m1.name (.custom body) }
        cid bad rest e (fun m hm => hgood m (List.mem_cons_of_mem m1 hm)) hbad
    refine ⟨s2, ?_, ?_, ?_⟩
    · simp only [List.cons_append, loadMethods, hb]
      exact hload
    · intro ty2 nm2 h
      exact hpres ty2 nm2 (methodLookup_tableInsert_isSome _ _ _ _ _ _ h)
    · intro m hm
      rcases List.mem_cons.mp hm with hm1 | hmr
      · subst hm1
        apply hpres
        rw [methodLookup_tableInsert_self]
        rfl
      · exact hgood2 m hmr

/-- C1: the claim states that for `LetIn{name, bound, body}` the resolver
resolves `bound` in the pre-binding scope, so a `LocalVariable` inside
`bound` referring to `name` must not see the binding being introduced.  The
code violates this: `Resolver::resolve_expression` pushes `name` BEFORE
resolving `bound`, so in an empty scope `let x = x in x` resolves without an
unbound-variable error and the `x` inside `bound` is resolved to De Bruijn
index 0 — it sees its own binding.  (At evaluation time the bound value is
pushed only after `bound` is evaluated, so such an index reads a wrong slot
or falls off the stack.) -/
theorem c1_letIn_bound_sees_own_binding :
    resolveExpression [] (.letIn "x" (.localVariable "x") (.localVariable "x")) =
      .ok (.letIn () (.localVariable 0) (.localVariable 0)) := rfl

/-- C2: a named expression whose every `LocalVariable` occurrence is bound by
an enclosing `LetIn` or by the scope `Γ` resolves successfully with every
produced De Bruijn index strictly below the resolver's scope depth at that
point, and a named expression containing a free `LocalVariable` fails with
an unbound-variable error (the resolver is total — it never panics and never
returns a default). -/
theorem c2_resolution_success_and_failure (Γ : List String) (e : NamedExpression) :
    ((resolveExpression Γ e).isOk = wellBound Γ e)
    ∧ (∀ r, resolveExpression Γ e = .ok r → idxBounded Γ.length r = true)
    ∧ (∀ err, resolveExpression Γ e = .error err →
        ∃ nm, err = .unboundVariable nm) :=
  resolve_sound.1 e Γ

/-- Witness for C2 at concrete inputs: `let x = p in x` under scope `[p]`
resolves with bounded indices, and a free variable `z` yields an
unbound-variable error. -/
theorem c2_resolution_success_and_failure_witness :
    ((resolveExpression ["p"] (.letIn "x" (.localVariable "p") (.localVariable "x"))).isOk =
      wellBound ["p"] (.letIn "x" (.localVariable "p") (.localVariable "x")))
    ∧ idxBounded 1 (.letIn () (.localVariable 1) (.localVariable 0)) = true
    ∧ ∃ nm, Error.unboundVariable "z" = Error.unboundVariable nm :=
  ⟨(c2_resolution_success_and_failure ["p"]
      (.letIn "x" (.localVariable "p") (.localVariable "x"))).1,
   (c2_resolution_success_and_failure ["p"]
      (.letIn "x" (.localVariable "p") (.localVariable "x"))).2.1
      (.letIn () (.localVariable 1) (.localVariable 0)) rfl,
   (c2_resolution_success_and_failure [] (.localVariable "z")).2.2
      (.unboundVariable "z") rfl⟩

/-- C3: invoking a `Custom` method leaves the local-variable stack at exactly
its prior depth whenever the invocation returns, on the success outcome and
on the failure outcome alike (the receiver and arguments are pushed, the
body is evaluated, and the stack is truncated back to the recorded length
unconditionally). -/
theorem c3_custom_invocation_restores_stack
    (fuel : Nat) (s : VMState) (body : Expression) (receiver : Value)
    (arguments : List Value) (s2 : VMState) (r : Except Error Value)
    (h : invokeMethod fuel s (.custom body) receiver arguments = some (s2, r)) :
    s2.locals.length = s.locals.length :=
  (eval_locals_length fuel).2.2.2 s (.custom body) receiver arguments s2 r h

/-- Witness for C3: one succeeding invocation (the body prints the receiver)
and one failing invocation (the body prints, then reads an out-of-range
index), each restoring the empty stack. -/
theorem c3_custom_invocation_restores_stack_witness :
    (VMState.mk initialVM.methods [] 0 ["hi"]).locals.length =
      initialVM.locals.length
    ∧ (VMState.mk initialVM.methods [] 0 ["hi"]).locals.length =
      initialVM.locals.length :=
  ⟨c3_custom_invocation_restores_stack 4 initialVM
      (.methodCall "println" (.localVariable 0) []) (.string "hi") []
      (VMState.mk initialVM.methods [] 0 ["hi"]) (.ok .unit) rfl,
   c3_custom_invocation_restores_stack 5 initialVM
      (.doBlock [.methodCall "println" (.localVariable 0) [], .localVariable 5])
      (.string "hi") []
      (VMState.mk initialVM.methods [] 0 ["hi"]) (.error .indexOutOfRange) rfl⟩

/-- C4: when a `MethodCall`'s receiver evaluates to a value whose runtime
type has no table in the dispatch map, or whose table lacks the called name
(both covered by `methodLookup` returning `none`), evaluation returns the
propagating error `NoSuchMethod(type, name)` — no default value is produced,
and the arguments are not evaluated (the lookup happens first). -/
theorem c4_missing_method_is_noSuchMethod
    (fuel : Nat) (s : VMState) (name : String) (receiver : Expression)
    (arguments : List Expression) (s1 : VMState) (v : Value)
    (h1 : evaluateExpression fuel s receiver = some (s1, .ok v))
    (h2 : methodLookup s1.methods v.typ name = none) :
    evaluateExpression (fuel + 1) s (.methodCall name receiver arguments) =
      some (s1, .error (.noSuchMethod v.typ name)) := by
  simp only [evaluateExpression, h1, h2]

/-- Witness for C4: calling `foo` on the `I32` literal `3` in the initial VM
fails with `NoSuchMethod(I32, foo)`. -/
theorem c4_missing_method_is_noSuchMethod_witness :
    evaluateExpression 2 initialVM (.methodCall "foo" (.literal (.i32 3)) []) =
      some (initialVM, .error (.noSuchMethod .i32 "foo")) :=
  c4_missing_method_is_noSuchMethod 1 initialVM "foo" (.literal (.i32 3)) []
    initialVM (.i32 3) rfl rfl

/-- C5: evaluation surfaces a propagating `TypeMismatch` failure whenever an
operation receives a value of the wrong tag: an `IfThenElse` whose condition
evaluates to a non-`Bool` value, the `concat` builtin with a non-`String`
receiver or a non-`String` argument, and the `println` builtin with a
non-`String` receiver. -/
theorem c5_wrong_tag_is_typeMismatch :
    (∀ (fuel : Nat) (s : VMState) (condition ifTrue ifFalse : Expression)
        (s1 : VMState) (v : Value),
      evaluateExpression fuel s condition = some (s1, .ok v) →
      (∀ b, v ≠ .bool b) →
      evaluateExpression (fuel + 1) s (.ifThenElse condition ifTrue ifFalse) =
        some (s1, .error .typeMismatch))
    ∧ (∀ (s : VMState) (v : Value) (arguments : List Value),
      (∀ str, v ≠ .string str) →
      applyBuiltin .concat s v arguments = (s, .error .typeMismatch))
    ∧ (∀ (s : VMState) (str : String) (arguments : List Value),
      (∃ a ∈ arguments, ∀ t, a ≠ .string t) →
      applyBuiltin .concat s (.string str) arguments = (s, .error .typeMismatch))
    ∧ (∀ (s : VMState) (v : Value) (arguments : List Value),
      (∀ str, v ≠ .string str) →
      applyBuiltin .println s v arguments = (s, .error .typeMismatch)) := by
  refine ⟨?_, ?_, ?_, ?_⟩
  · intro fuel s condition ifTrue ifFalse s1 v h1 hv
    cases v with
    | bool b => exact absurd rfl (hv b)
    | object c p => simp only [evaluateExpression, h1]
    | unit => simp only [evaluateExpression, h1]
    | i32 n => simp only [evaluateExpression, h1]
    | string str => simp only [evaluateExpression, h1]
  · intro s v arguments hv
    cases v with
    | string str => exact absurd rfl (hv str)
    | object c p => rfl
    | unit => rfl
    | bool b => rfl
    | i32 n => rfl
  · intro s str arguments hex
    simp [applyBuiltin, concatArguments_typeMismatch arguments hex]
  · intro s v arguments hv
    cases v with
    | string str => exact absurd rfl (hv str)
    | object c p => rfl
    | unit => rfl
    | bool b => rfl
    | i32 n => rfl

/-- Witness for C5 at concrete inputs: an `I32` condition, an `I32` `concat`
receiver, an `I32` `concat` argument, and a `Unit` `println` receiver. -/
theorem c5_wrong_tag_is_typeMismatch_witness :
    evaluateExpression 2 initialVM
      (.ifThenElse (.literal (.i32 0)) (.literal .unit) (.literal .unit)) =
      some (initialVM, .error .typeMismatch)
    ∧ applyBuiltin .concat initialVM (.i32 1) [] =
      (initialVM, .error .typeMismatch)
    ∧ applyBuiltin .concat initialVM (.string "a") [.i32 1] =
      (initialVM, .error .typeMismatch)
    ∧ applyBuiltin .println initialVM .unit [] =
      (initialVM, .error .typeMismatch) :=
  ⟨c5_wrong_tag_is_typeMismatch.1 1 initialVM (.literal (.i32 0))
      (.literal .unit) (.literal .unit) initialVM (.i32 0) rfl
      (fun _ h => nomatch h),
   c5_wrong_tag_is_typeMismatch.2.1 initialVM (.i32 1) []
      (fun _ h => nomatch h),
   c5_wrong_tag_is_typeMismatch.2.2.1 initialVM "a" [.i32 1]
      ⟨.i32 1, List.mem_singleton.mpr rfl, fun _ h => nomatch h⟩,
   c5_wrong_tag_is_typeMismatch.2.2.2 initialVM .unit []
      (fun _ h => nomatch h)⟩

/-- C6: resolution always selects the innermost (most recently pushed)
binding: the most recently introduced binding resolves to index 0; the
shadowing expression `let x = 1 in let x = 2 in x` resolves its body `x` to
index 0 — the second (innermost) `x` — and evaluates to `2`; under the
loader's initial scope (`this` then the declared parameters in order, so
long as no parameter itself shadows `this`) the receiver of a method with
`p` parameters resolves to index `p`, and the last-declared parameter
resolves to index 0. -/
theorem c6_innermost_binding_wins :
    (∀ (Γ : List String) (name : String),
      resolveExpression (name :: Γ) (.localVariable name) =
        .ok (.localVariable 0))
    ∧ (resolveExpression []
        (.letIn "x" (.literal (.i32 1))
          (.letIn "x" (.literal (.i32 2)) (.localVariable "x"))) =
        .ok (.letIn () (.literal (.i32 1))
          (.letIn () (.literal (.i32 2)) (.localVariable 0)))
      ∧ evaluateExpression 5 initialVM
          (.letIn () (.literal (.i32 1))
            (.letIn () (.literal (.i32 2)) (.localVariable 0))) =
        some (initialVM, .ok (.i32 2)))
    ∧ (∀ params : List String, ¬"this" ∈ params →
      resolveExpression (initialScope params) (.localVariable "this") =
        .ok (.localVariable params.length))
    ∧ (∀ (params : List String) (p : String),
      resolveExpression (initialScope (params ++ [p])) (.localVariable p) =
        .ok (.localVariable 0)) := by
  refine ⟨?_, ⟨rfl, rfl⟩, ?_, ?_⟩
  · intro Γ name
    simp [resolveExpression, position]
  · intro params h
    have h2 : ¬"this" ∈ params.reverse := by simpa using h
    simp only [resolveExpression, initialScope, List.reverse_cons]
    rw [position_append_self _ _ h2]
    simp
  · intro params p
    simp [resolveExpression, initialScope, List.reverse_append, position]

/-- Witness for C6: the innermost rule at scope `[a]`, the receiver at index
1 for the one-parameter method `q`, and the last parameter `q` at index 0. -/
theorem c6_innermost_binding_wins_witness :
    resolveExpression ["a"] (.localVariable "a") = .ok (.localVariable 0)
    ∧ resolveExpression (initialScope ["q"]) (.localVariable "this") =
      .ok (.localVariable 1)
    ∧ resolveExpression (initialScope ["q"]) (.localVariable "q") =
      .ok (.localVariable 0) :=
  ⟨c6_innermost_binding_wins.1 [] "a",
   c6_innermost_binding_wins.2.2.1 ["q"] (by simp),
   c6_innermost_binding_wins.2.2.2 [] "q"⟩

/-- C7: the claim states that a successfully resolved method body, evaluated
under the invocation discipline (stack = receiver then parameters), never
reaches the out-of-range branch of `LocalVariable` lookup.  The code
violates this: because the resolver pushes the `LetIn` binder before
resolving `bound`, the zero-parameter body `let x = this in x` resolves
`this` inside `bound` to index 1, while the evaluation stack holds only the
receiver (depth 1) when `bound` is evaluated, so the lookup falls off the
stack and the `IndexOutOfRange` branch is reached. -/
theorem c7_indexOutOfRange_reachable :
    resolveExpression (initialScope [])
      (.letIn "x" (.localVariable "this") (.localVariable "x")) =
      .ok (.letIn () (.localVariable 1) (.localVariable 0))
    ∧ invokeMethod 3 initialVM
        (.custom (.letIn () (.localVariable 1) (.localVariable 0)))
        (.string "recv") [] =
      some (initialVM, .error .indexOutOfRange) := ⟨rfl, rfl⟩

/-- C8: evaluating `Do(steps)` evaluates each step in order and discards all
intermediate values: an empty `Do` evaluates to `Unit` without touching the
state, and when the proper prefix of the steps evaluates successfully
(ending in state `s1`, its values discarded), the whole `Do` evaluates
exactly as its last step from `s1` — the value of the `Do` is the value of
the last step, and nothing is pushed onto the local-variable stack. -/
theorem c8_do_sequencing :
    (∀ (fuel : Nat) (s : VMState),
      evaluateExpression (fuel + 2) s (.doBlock []) = some (s, .ok .unit))
    ∧ (∀ (xs : List Expression) (x : Expression) (fuel : Nat) (s s1 : VMState)
        (vs : List Value),
      evaluateArguments fuel s xs = some (s1, .ok vs) →
      evaluateExpression (fuel + 1) s (.doBlock (xs ++ [x])) =
        evaluateExpression (fuel - 1 - xs.length) s1 x) := by
  constructor
  · intro fuel s
    show evaluateSteps (fuel + 1) s [] = some (s, .ok .unit)
    rfl
  · intro xs x fuel s s1 vs h
    show evaluateSteps fuel s (xs ++ [x]) = _
    exact evaluateSteps_append xs fuel s s1 vs x h

/-- Witness for C8: `Do([(), 7])` evaluates to the last step's value `7`. -/
theorem c8_do_sequencing_witness :
    evaluateExpression 4 initialVM
      (.doBlock [.literal .unit, .literal (.i32 7)]) =
      evaluateExpression 1 initialVM (.literal (.i32 7)) :=
  c8_do_sequencing.2 [.literal .unit] (.literal (.i32 7)) 3 initialVM initialVM
    [.unit] rfl

/-- C9, counterexample: the claim states that a program with one bad method
installs no dispatch-table entries at all.  Loading the single-class program
`class C { m1 ok; m2 with free variable y }` does propagate the resolution
error for `m2`, but the entry for the previously resolved method `m1` is
already installed in the dispatch table when the load fails — a partial
load, refuting the "installs no dispatch-table entries" part. -/
theorem c9_incomplete_load_counterexample :
    (loadProgram initialVM (Program.mk [ProgramClass.mk "C"
        [ClassMethod.mk "m1" [] (.literal .unit),
         ClassMethod.mk "m2" [] (.localVariable "y")]])).2 =
      .error (.unboundVariable "y")
    ∧ methodLookup (loadProgram initialVM (Program.mk [ProgramClass.mk "C"
        [ClassMethod.mk "m1" [] (.literal .unit),
         ClassMethod.mk "m2" [] (.localVariable "y")]])).1.methods
        (.object 1) "m1" = some (.custom (.literal .unit)) := ⟨rfl, rfl⟩

/-- C9, amended: loading a program whose class contains a method with a
resolution failure propagates the first resolution error eagerly, but the
dispatch-table entries for the methods resolved before the failing method
remain installed (a partial load). -/
theorem c9_eager_error_keeps_installed_entries (vm : VMState) (cname : String)
    (good : List ClassMethod) (bad : ClassMethod) (rest : List ClassMethod)
    (e : Error)
    (hgood : ∀ m ∈ good,
      (resolveExpression (initialScope m.parameters) m.body).isOk = true)
    (hbad : resolveExpression (initialScope bad.parameters) bad.body = .error e) :
    (loadProgram vm (Program.mk [ProgramClass.mk cname (good ++ bad :: rest)])).2 =
      .error e
    ∧ ∀ m ∈ good,
      (methodLookup
        (loadProgram vm
          (Program.mk [ProgramClass.mk cname (good ++ bad :: rest)])).1.methods
        (.object (vm.classIdCounter + 1)) m.name).isSome = true := by
  obtain ⟨s2, hload, _, hgood2⟩ :=
    loadMethods_split good { vm with classIdCounter := vm.classIdCounter + 1 }
      (vm.classIdCounter + 1) bad rest e hgood hbad
  constructor
  · simp [loadProgram, loadClasses, hload]
  · intro m hm
    simp only [loadProgram, loadClasses, hload]
    exact hgood2 m hm

/-- Witness for C9's amended claim at the concrete two-method program. -/
theorem c9_eager_error_keeps_installed_entries_witness :
    (loadProgram initialVM (Program.mk [ProgramClass.mk "C"
        [ClassMethod.mk "m1" [] (.literal .unit),
         ClassMethod.mk "m2" [] (.localVariable "y")]])).2 =
      .error (.unboundVariable "y")
    ∧ ∀ m ∈ [ClassMethod.mk "m1" [] (Of.literal Value.unit)],
      (methodLookup (loadProgram initialVM (Program.mk [ProgramClass.mk "C"
          [ClassMethod.mk "m1" [] (.literal .unit),
           ClassMethod.mk "m2" [] (.localVariable "y")]])).1.methods
        (.object 1) m.name).isSome = true :=
  c9_eager_error_keeps_installed_entries initialVM "C"
    [ClassMethod.mk "m1" [] (.literal .unit)]
    (ClassMethod.mk "m2" [] (.localVariable "y")) [] (.unboundVariable "y")
    (by
      intro m hm
      simp only [List.mem_singleton] at hm
      subst hm
      rfl)
    rfl

/-- C10: resolution is structure-preserving — when resolution succeeds, the
resolved expression has the same constructor skeleton as the input at every
node (identical literal values, method-call names, argument counts and
order, `Do` step counts); only binder names are erased and variable names
replaced by indices, both of which the skeleton quotients away on each
side. -/
theorem c10_resolution_structure_preserving
    (Γ : List String) (e : NamedExpression) (r : Expression)
    (h : resolveExpression Γ e = .ok r) :
    skeleton r = skeleton e :=
  resolve_skeleton.1 e Γ r h

/-- Witness for C10: the resolved form of `let x = 1 in x` has the same
skeleton as its named form. -/
theorem c10_resolution_structure_preserving_witness :
    skeleton (Of.letIn () (Of.literal (Value.i32 1)) (Of.localVariable 0)) =
      skeleton (Of.letIn "x" (Of.literal (Value.i32 1)) (Of.localVariable "x")) :=
  c10_resolution_structure_preserving [] _ _ rfl
